import Mathlib

/-!
Shallow embedding of `src/composables/defineShortcuts.ts`: the shortcut spec
parser, the combined/chained matchers, the debounced chain-history state
machine, the typing guard, the `ShortcutRegistry` singleton map, and the
`createHotkeyConflictDetector` helper.  JavaScript strings are modelled as
Lean `String`; JavaScript `Map` objects are modelled as insertion-ordered
association lists with overwrite-on-set semantics; handler functions are
modelled by an abstract identifier type `α`; `setTimeout`/`useDebounceFn`
timing is modelled by an explicit `Nat` clock and an optional deadline.
-/

namespace DefineShortcuts

/-- Models `Char` lowercasing as performed by JavaScript
`String.prototype.toLowerCase` on the ASCII range (the only range the
shortcut grammar uses): ASCII `A`..`Z` (codes 65..90) map to `a`..`z`,
everything else is unchanged. -/
def jsCharToLower (c : Char) : Char :=
  if 65 ≤ c.toNat ∧ c.toNat ≤ 90 then Char.ofNat (c.toNat + 32) else c

/-- Models JavaScript `s.toLowerCase()`. -/
def toLowerStr (s : String) : String :=
  ⟨s.data.map jsCharToLower⟩

/-- Boolean test that `l` begins with the pattern `p`
(JavaScript `String.prototype.startsWith`, over the character list). -/
def startsWithSeq : List Char → List Char → Bool
  | _, [] => true
  | [], _ :: _ => false
  | a :: as, b :: bs => a == b && startsWithSeq as bs

/-- Boolean test that the pattern `p` occurs contiguously inside `l`
(JavaScript `String.prototype.includes`, over the character list). -/
def containsSeq : List Char → List Char → Bool
  | [], p => p.isEmpty
  | a :: as, p => startsWithSeq (a :: as) p || containsSeq as p

/-- Models JavaScript `s.includes(sub)` (substring containment). -/
def jsIncludes (s sub : String) : Bool :=
  containsSeq s.data sub.data

/-- Models JavaScript `s.startsWith(p)`. -/
def jsStartsWith (s p : String) : Bool :=
  startsWithSeq s.data p.data

/-- Models JavaScript `s.split(sep)` for a single-character separator:
split at every occurrence of `sep`; adjacent separators produce empty
segments, and the empty string splits to one empty segment. -/
def splitOnChar (sep : Char) : List Char → List (List Char)
  | [] => [[]]
  | c :: cs =>
    let r := splitOnChar sep cs
    if c == sep then
      [] :: r
    else
      match r with
      | [] => [[c]]
      | g :: gs => (c :: g) :: gs

/-- Models JavaScript `s.split(sep)`, returned as Lean strings. -/
def jsSplit (s : String) (sep : Char) : List String :=
  (splitOnChar sep s.data).map String.mk

/-- Models JavaScript `xs.join(sep)` for a single-character separator. -/
def joinChar (sep : Char) : List (List Char) → List Char
  | [] => []
  | [g] => g
  | g :: gs => g ++ sep :: joinChar sep gs

/-- Models JavaScript `xs.join(sep)`, over Lean strings. -/
def jsJoin (xs : List String) (sep : Char) : String :=
  ⟨joinChar sep (xs.map String.data)⟩

/-- The JavaScript line terminators, the characters that `.` in a regex
without the `s` flag does NOT match: U+000A, U+000D, U+2028, U+2029. -/
def isLineTerminator (c : Char) : Bool :=
  c == '\n' || c == '\r' || c == '\u2028' || c == '\u2029'

/-- Semantics of the source regexes `/^[^-]+.*-.*[^-]+$/` (with `sep = '-'`)
and `/^[^_]+.*_.*[^_]+$/` (with `sep = '_'`): the character list decomposes
as one-or-more non-separator characters, then a line-terminator-free
stretch (`.` in JavaScript does not match line terminators, while the
negated class `[^-]` does), then the separator, then a
line-terminator-free stretch, then one-or-more non-separator
characters. -/
def regexMatchesSep (sep : Char) (l : List Char) : Prop :=
  ∃ a b d e : List Char,
    l = a ++ b ++ sep :: (d ++ e) ∧
    a ≠ [] ∧ sep ∉ a ∧ e ≠ [] ∧ sep ∉ e ∧
    (∀ c ∈ b, isLineTerminator c = false) ∧
    (∀ c ∈ d, isLineTerminator c = false)

/-- All ways of writing a list as a concatenation of two lists, in order
of growing first component. -/
def splits : List α → List (List α × List α)
  | [] => [([], [])]
  | x :: xs => ([], x :: xs) :: (splits xs).map (fun p => (x :: p.1, p.2))

/-- Executable test for the tail `.*[^-]+$` of the source regexes:
some split `l = d ++ e` has a line-terminator-free `d` and a nonempty
separator-free `e`. -/
def tailTest (sep : Char) (l : List Char) : Bool :=
  (splits l).any (fun q =>
    q.1.all (fun c => !(isLineTerminator c)) &&
    (!q.2.isEmpty && q.2.all (fun c => !(c == sep))))

/-- Executable test for `.*-.*[^-]+$`: some split `l = b ++ sep :: rest`
has a line-terminator-free `b` and a tail accepted by `tailTest`. -/
def midTest (sep : Char) (l : List Char) : Bool :=
  (splits l).any (fun q =>
    q.1.all (fun c => !(isLineTerminator c)) &&
    match q.2 with
    | [] => false
    | c :: rest => c == sep && tailTest sep rest)

/-- Executable matcher for the whole regex `^[^-]+.*-.*[^-]+$`, by
enumerating decompositions; equivalent to `regexMatchesSep` (see
`regexTestSep_eq_true_iff`). -/
def regexTestSep (sep : Char) (s : String) : Bool :=
  (splits s.data).any (fun q =>
    !q.1.isEmpty && q.1.all (fun c => !(c == sep)) && midTest sep q.2)

/-- Source line 99: `chainedShortcutRegex = /^[^-]+.*-.*[^-]+$/`,
as the executable test applied at `'-'`. -/
def chainedShortcutRegexTest (s : String) : Bool :=
  regexTestSep '-' s

/-- Source line 100: `combinedShortcutRegex = /^[^_]+.*_.*[^_]+$/`,
as the executable test applied at `'_'`. -/
def combinedShortcutRegexTest (s : String) : Bool :=
  regexTestSep '_' s

/-- Source interface `Shortcut` (lines 89-97), with the handler function
replaced by an abstract identifier of type `α`. -/
structure Shortcut (α : Type) where
  handler : α
  chained : Bool
  key : String
  ctrlKey : Bool
  metaKey : Bool
  shiftKey : Bool
  altKey : Bool
deriving DecidableEq, Repr

/-- The modifier token list from source line 123. -/
def modifierTokens : List String :=
  ["meta", "command", "ctrl", "shift", "alt", "option"]

/-- Source `parseShortcut` (lines 102-137) up to but excluding the platform
normalization step at lines 131-134: lowercase the spec, classify it as
chained (has `-`, no `_`) or combined (has `_`), validate against the
corresponding regex, and build the parsed record. -/
def parseShortcutRaw (key : String) (handler : α) : Option (Shortcut α) :=
  let k := toLowerStr key
  let chained := k.data.contains '-' && !(k.data.contains '_')
  let combined := k.data.contains '_'
  if chained && !(chainedShortcutRegexTest k) then
    none
  else if combined && !(combinedShortcutRegexTest k) then
    none
  else if chained then
    some { handler := handler, chained := true, key := k,
           ctrlKey := false, metaKey := false, shiftKey := false, altKey := false }
  else
    let p := jsSplit k '_'
    some { handler := handler, chained := false,
           key := jsJoin (p.filter (fun x => !(modifierTokens.contains x))) '_',
           ctrlKey := p.contains "ctrl",
           metaKey := p.contains "meta" || p.contains "command",
           shiftKey := p.contains "shift",
           altKey := p.contains "alt" || p.contains "option" }

/-- Source lines 131-134: on a non-macOS platform a parsed spec with
`metaKey` set and `ctrlKey` clear is rewritten to `ctrlKey`. -/
def platformNormalize (macOS : Bool) (s : Shortcut α) : Shortcut α :=
  if !macOS && s.metaKey && !s.ctrlKey then
    { s with metaKey := false, ctrlKey := true }
  else
    s

/-- Source `parseShortcut` (lines 102-137): the raw parse followed by the
platform normalization of lines 131-134. -/
def parseShortcut (key : String) (handler : α) (macOS : Bool) : Option (Shortcut α) :=
  (parseShortcutRaw key handler).map (platformNormalize macOS)

/-- Source lines 160-163: the `reduce` that builds the active shortcut set
from the config entries, silently dropping specs that fail to parse. -/
def buildShortcuts (config : List (String × α)) (macOS : Bool) : List (Shortcut α) :=
  config.foldl
    (fun acc kh =>
      match parseShortcut kh.1 kh.2 macOS with
      | some s => acc ++ [s]
      | none => acc)
    []

/-- A keyboard event as consumed by the dispatcher: its DOM `type`
string, `key` string, and the four modifier flags. -/
structure KeyEvent where
  type : String
  key : String
  ctrlKey : Bool
  metaKey : Bool
  shiftKey : Bool
  altKey : Bool
deriving DecidableEq, Repr

/-- A keydown event for a bare key with no modifiers held. -/
def mkKeydown (k : String) : KeyEvent :=
  ⟨"keydown", k, false, false, false, false⟩

/-- The focused element as seen by the typing guard. -/
structure ActiveElement where
  tagName : String
  isContentEditable : Bool
deriving DecidableEq, Repr

/-- Source `isTyping` (lines 153-158): with `disableOnInputs` off it is
always `false`; otherwise it reports whether the focused element is an
`input`, a `textarea`, or content-editable. -/
def isTyping (disableOnInputs : Bool) (active : Option ActiveElement) : Bool :=
  if !disableOnInputs then
    false
  else
    let tag := active.map (fun el => toLowerStr el.tagName)
    tag == some "input" || tag == some "textarea" ||
      (active.map (fun el => el.isContentEditable)).getD false

/-- Mutable dispatcher state: the chain `history` array (source line 165)
and the pending debounce deadline of `debouncedReset` (source line 169),
`none` when no reset is pending. -/
structure DispatchState where
  history : List String
  deadline : Option Nat
deriving DecidableEq, Repr

/-- The dispatcher state at attach time: empty history, no pending timer. -/
def initState : DispatchState :=
  ⟨[], none⟩

/-- Source `matchChained` (lines 171-174) before taking `.handler`: with a
nonempty history, find the first shortcut whose `chained` flag is set and
whose key equals `"{lastHistoryToken}-{newToken}"`. -/
def findChained (shortcuts : List (Shortcut α)) (history : List String)
    (key : String) : Option (Shortcut α) :=
  match history.getLast? with
  | none => none
  | some last => shortcuts.find? (fun s => s.chained && s.key == last ++ "-" ++ key)

/-- Source `matchChained` (lines 171-174): the handler of the found
shortcut, if any. -/
def matchChained (shortcuts : List (Shortcut α)) (history : List String)
    (key : String) : Option α :=
  (findChained shortcuts history key).map (fun s => s.handler)

/-- Source `matchCombined` (lines 176-185) before taking `.handler`: find
the first non-chained shortcut whose key equals the event key lowercased
and whose four modifier flags all equal the event's flags. -/
def findCombined (shortcuts : List (Shortcut α)) (e : KeyEvent) : Option (Shortcut α) :=
  shortcuts.find?
    (fun s =>
      !s.chained && s.key == toLowerStr e.key &&
      s.ctrlKey == e.ctrlKey && s.metaKey == e.metaKey &&
      s.shiftKey == e.shiftKey && s.altKey == e.altKey)

/-- Source `matchCombined` (lines 176-185): the handler of the found
shortcut, if any. -/
def matchCombined (shortcuts : List (Shortcut α)) (e : KeyEvent) : Option α :=
  (findCombined shortcuts e).map (fun s => s.handler)

/-- Source `onEventFired` (lines 190-208), the `useMagicKeys` listener:
skip while typing or for non-keydown events; skip the combined path
entirely when the event key occurs inside some chained shortcut's key
pattern; otherwise fire the first matching combined shortcut and clear the
chain history.  Returns the list of invoked handlers and the new state. -/
def onEventFired (shortcuts : List (Shortcut α)) (typing : Bool) (e : KeyEvent)
    (st : DispatchState) : List α × DispatchState :=
  if typing || e.type != "keydown" then
    ([], st)
  else
    let key := toLowerStr e.key
    if shortcuts.any (fun s => s.chained && jsIncludes s.key key) then
      ([], st)
    else
      match findCombined shortcuts e with
      | some s => ([s.handler], { st with history := [] })
      | none => ([], st)

/-- Source `onKeyDown` (lines 211-238), the `useEventListener` keydown
listener, evaluated at clock time `now`: skip for an empty key or while
typing; fire a chained match and clear the history; otherwise, when the
key starts some chained pattern or follows a hyphen in one, push it onto
the history and restart the debounce timer (deadline `now + chainDelay`). -/
def onKeyDown (shortcuts : List (Shortcut α)) (typing : Bool) (e : KeyEvent)
    (now chainDelay : Nat) (st : DispatchState) : List α × DispatchState :=
  if e.key == "" then
    ([], st)
  else if typing then
    ([], st)
  else
    let key := toLowerStr e.key
    match findChained shortcuts st.history key with
    | some s => ([s.handler], { st with history := [] })
    | none =>
      if shortcuts.any
          (fun s => s.chained && (jsStartsWith s.key key || jsIncludes s.key ("-" ++ key))) then
        ([], { history := st.history ++ [key], deadline := some (now + chainDelay) })
      else
        ([], st)

/-- The pending `useDebounceFn` reset observed at clock time `now`: if the
deadline has been reached the scheduled `resetHistory` has run, clearing
the history; otherwise nothing has happened yet. -/
def expireTimer (now : Nat) (st : DispatchState) : DispatchState :=
  match st.deadline with
  | some d => if d ≤ now then ⟨[], none⟩ else st
  | none => st

/-- Delivery of one keydown event at clock time `now`: any due debounce
reset runs first, then the two listeners in their registration order —
the `useMagicKeys` listener (source line 188) followed by the
`useEventListener` keydown listener (source line 240).  Returns all
invoked handlers in invocation order and the final state. -/
def processKeydown (shortcuts : List (Shortcut α)) (typing : Bool) (e : KeyEvent)
    (now chainDelay : Nat) (st : DispatchState) : List α × DispatchState :=
  let st0 := expireTimer now st
  let r1 := onEventFired shortcuts typing e st0
  let r2 := onKeyDown shortcuts typing e now chainDelay r1.2
  (r1.1 ++ r2.1, r2.2)

/-- JavaScript `Map.prototype.set` over an insertion-ordered association
list: replace the value in place when the key is present, otherwise append
the new entry. -/
def mapSet (m : List (String × β)) (k : String) (v : β) : List (String × β) :=
  if m.any (fun p => p.1 == k) then
    m.map (fun p => if p.1 == k then (k, v) else p)
  else
    m ++ [(k, v)]

/-- JavaScript `Map.prototype.get`: the value of the first entry with the
given key, if any. -/
def mapGet (m : List (String × β)) (k : String) : Option β :=
  (m.find? (fun p => p.1 == k)).map (fun p => p.2)

/-- The value type of the `ShortcutRegistry` backing map (source line 11):
`{ component, handler, location }`, with the handler abstracted to `α`. -/
structure RegRecord (α : Type) where
  component : String
  handler : α
  location : String
deriving DecidableEq, Repr

/-- Source `ShortcutRegistry.register` (lines 20-31): the `console.warn`
on a duplicate is a side effect only; the map entry is overwritten
unconditionally via `Map.set`. -/
def registryRegister (m : List (String × RegRecord α)) (shortcut : String)
    (handler : α) (componentName location : String) : List (String × RegRecord α) :=
  mapSet m shortcut ⟨componentName, handler, location⟩

/-- Source `ShortcutRegistry.getRegistration` (lines 45-47). -/
def getRegistration (m : List (String × RegRecord α)) (shortcut : String) :
    Option (RegRecord α) :=
  mapGet m shortcut

/-- The registry invariant claimed for the backing map: no two entries
share a shortcut string. -/
def distinctKeys (m : List (String × β)) : Prop :=
  m.Pairwise (fun p q => p.1 ≠ q.1)

/-- The value type of the `createHotkeyConflictDetector` backing map
(source line 545): `{ scope, component }`. -/
structure ConflictOwner where
  scope : String
  component : String
deriving DecidableEq, Repr

/-- Source `createHotkeyConflictDetector.register` (lines 547-553): the
`console.warn` on a same-scope duplicate is a side effect only; the map
entry is overwritten unconditionally via `Map.set`. -/
def conflictRegister (m : List (String × ConflictOwner)) (key scope component : String) :
    List (String × ConflictOwner) :=
  mapSet m key ⟨scope, component⟩

/-- One step of building the `keyGroups` map inside `getConflicts`
(source lines 563-568): append the owner to the group stored under the
key, creating the group when absent. -/
def groupPush (groups : List (String × List ConflictOwner)) (k : String)
    (v : ConflictOwner) : List (String × List ConflictOwner) :=
  if groups.any (fun p => p.1 == k) then
    groups.map (fun p => if p.1 == k then (p.1, p.2 ++ [v]) else p)
  else
    groups ++ [(k, [v])]

/-- Source `createHotkeyConflictDetector.getConflicts` (lines 559-577):
group the registered entries by key in insertion order, then keep only
the groups with more than one owner. -/
def conflictGetConflicts (m : List (String × ConflictOwner)) :
    List (String × List ConflictOwner) :=
  (m.foldl (fun groups p => groupPush groups p.1 p.2) []).filter
    (fun p => p.2.length > 1)

/-- Modelled from the spec: the chained-spec shape the specification
describes — "exactly two non-empty segments joined by `-`" — i.e. the
lowercased string splits on `-` into exactly two non-empty hyphen-free
segments.  Declared for comparison with the source regex test, which is
the authority. -/
def specTwoSegmentShape (s : String) : Bool :=
  match splitOnChar '-' s.data with
  | [a, b] => !a.isEmpty && !b.isEmpty
  | _ => false

/-! Helper lemmas about the JavaScript string-operation models. -/

theorem startsWithSeq_eq_true_iff (p l : List Char) :
    startsWithSeq l p = true ↔ ∃ v, l = p ++ v := by
  induction p generalizing l with
  | nil => simp [startsWithSeq]
  | cons b bs ih =>
    cases l with
    | nil => simp [startsWithSeq]
    | cons a as =>
      simp only [startsWithSeq, Bool.and_eq_true, beq_iff_eq, ih, List.cons_append,
        List.cons.injEq]
      constructor
      · rintro ⟨rfl, v, rfl⟩
        exact ⟨v, rfl, rfl⟩
      · rintro ⟨v, rfl, rfl⟩
        exact ⟨rfl, v, rfl⟩

theorem containsSeq_eq_true_iff (l p : List Char) :
    containsSeq l p = true ↔ ∃ u v, l = u ++ p ++ v := by
  induction l with
  | nil =>
    simp only [containsSeq, List.isEmpty_iff]
    constructor
    · rintro rfl
      exact ⟨[], [], rfl⟩
    · rintro ⟨u, v, h⟩
      rcases List.append_eq_nil.mp h.symm with ⟨h1, h2⟩
      exact (List.append_eq_nil.mp h1).2
  | cons a as ih =>
    simp only [containsSeq, Bool.or_eq_true, startsWithSeq_eq_true_iff, ih]
    constructor
    · rintro (⟨v, hv⟩ | ⟨u, v, huv⟩)
      · exact ⟨[], v, by simp [hv]⟩
      · exact ⟨a :: u, v, by simp [huv]⟩
    · rintro ⟨u, v, huv⟩
      cases u with
      | nil =>
        left
        exact ⟨v, by simpa using huv⟩
      | cons x u' =>
        right
        rcases List.cons.injEq .. ▸ huv with ⟨-, h2⟩
        exact ⟨u', v, by simpa using h2⟩

theorem jsIncludes_append (x p y : String) :
    jsIncludes (x ++ p ++ y) p = true := by
  unfold jsIncludes
  rw [containsSeq_eq_true_iff]
  exact ⟨x.data, y.data, by simp [String.data_append]⟩

theorem jsStartsWith_append (p y : String) :
    jsStartsWith (p ++ y) p = true := by
  unfold jsStartsWith
  rw [startsWithSeq_eq_true_iff]
  exact ⟨y.data, by simp [String.data_append]⟩

theorem jsCharToLower_fixed_or_letter (c : Char) :
    jsCharToLower c = c ∨
      (97 ≤ (jsCharToLower c).toNat ∧ (jsCharToLower c).toNat ≤ 122) := by
  unfold jsCharToLower
  split
  · rename_i h
    right
    obtain ⟨h1, h2⟩ := h
    generalize c.toNat = n at h1 h2 ⊢
    interval_cases n <;> decide
  · left
    rfl

theorem jsCharToLower_eq_low (c x : Char) (hx : x.toNat < 97) :
    jsCharToLower c = x → c = x := by
  intro he
  rcases jsCharToLower_fixed_or_letter c with h | ⟨h1, _⟩
  · rw [h] at he
    exact he
  · rw [he] at h1
    omega

theorem low_mem_toLowerStr (s : String) (x : Char) (hx : x.toNat < 97)
    (hfix : jsCharToLower x = x) :
    x ∈ (toLowerStr s).data ↔ x ∈ s.data := by
  show x ∈ s.data.map jsCharToLower ↔ x ∈ s.data
  rw [List.mem_map]
  constructor
  · rintro ⟨c, hc, he⟩
    exact (jsCharToLower_eq_low c x hx he) ▸ hc
  · intro h
    exact ⟨x, h, hfix⟩

theorem splitOnChar_of_not_mem (sep : Char) (l : List Char) (h : sep ∉ l) :
    splitOnChar sep l = [l] := by
  induction l with
  | nil => rfl
  | cons c cs ih =>
    have hc : (c == sep) = false := beq_eq_false_iff_ne.mpr (fun he => h (he ▸ List.mem_cons_self c cs))
    have hcs : sep ∉ cs := fun hm => h (List.mem_cons_of_mem c hm)
    simp only [splitOnChar, hc, ih hcs]
    rfl

theorem mem_splits {γ : Type} (l u v : List γ) :
    (u, v) ∈ splits l ↔ l = u ++ v := by
  induction l generalizing u v with
  | nil =>
    simp only [splits, List.mem_singleton, Prod.mk.injEq]
    constructor
    · rintro ⟨rfl, rfl⟩
      rfl
    · intro h
      rcases List.append_eq_nil.mp h.symm with ⟨rfl, rfl⟩
      exact ⟨rfl, rfl⟩
  | cons x xs ih =>
    simp only [splits, List.mem_cons, List.mem_map, Prod.mk.injEq]
    constructor
    · rintro (⟨rfl, rfl⟩ | ⟨p, hp, rfl, rfl⟩)
      · rfl
      · rw [List.cons_append]
        exact congrArg (x :: ·) ((ih p.1 p.2).mp hp)
    · intro h
      cases u with
      | nil =>
        left
        rw [List.nil_append] at h
        exact ⟨rfl, h.symm⟩
      | cons y u2 =>
        right
        rw [List.cons_append] at h
        injection h with h1 h2
        subst h1
        exact ⟨(u2, v), (ih u2 v).mpr h2, rfl, rfl⟩

theorem all_not_beq_iff {γ : Type} [BEq γ] [LawfulBEq γ] (l : List γ) (x : γ) :
    (l.all fun c => !(c == x)) = true ↔ x ∉ l := by
  rw [List.all_eq_true]
  constructor
  · intro h hx
    have := h x hx
    simp at this
  · intro h c hc
    rw [Bool.not_eq_true']
    exact beq_eq_false_iff_ne.mpr (fun he => h (he ▸ hc))

theorem all_lineterm_false_iff (l : List Char) :
    (l.all fun c => !(isLineTerminator c)) = true ↔
      ∀ c ∈ l, isLineTerminator c = false := by
  rw [List.all_eq_true]
  constructor <;> intro h c hc
  · simpa using h c hc
  · simpa using h c hc

theorem tailTest_eq_true_iff (sep : Char) (l : List Char) :
    tailTest sep l = true ↔
      ∃ d e, l = d ++ e ∧ (∀ c ∈ d, isLineTerminator c = false) ∧
        e ≠ [] ∧ sep ∉ e := by
  unfold tailTest
  rw [List.any_eq_true]
  constructor
  · rintro ⟨q, hq, hpred⟩
    rw [Bool.and_eq_true, Bool.and_eq_true] at hpred
    obtain ⟨hd, hne, hse⟩ := hpred
    refine ⟨q.1, q.2, (mem_splits l q.1 q.2).mp hq, (all_lineterm_false_iff _).mp hd,
      ?_, (all_not_beq_iff _ _).mp hse⟩
    intro h
    rw [h] at hne
    simp at hne
  · rintro ⟨d, e, rfl, hd, he, hse⟩
    refine ⟨(d, e), (mem_splits _ d e).mpr rfl, ?_⟩
    rw [Bool.and_eq_true, Bool.and_eq_true]
    refine ⟨(all_lineterm_false_iff _).mpr hd, ?_, (all_not_beq_iff _ _).mpr hse⟩
    cases e with
    | nil => exact absurd rfl he
    | cons _ _ => rfl

theorem midTest_eq_true_iff (sep : Char) (l : List Char) :
    midTest sep l = true ↔
      ∃ b d e, l = b ++ sep :: (d ++ e) ∧
        (∀ c ∈ b, isLineTerminator c = false) ∧
        (∀ c ∈ d, isLineTerminator c = false) ∧ e ≠ [] ∧ sep ∉ e := by
  unfold midTest
  rw [List.any_eq_true]
  constructor
  · rintro ⟨q, hq, hpred⟩
    rw [Bool.and_eq_true] at hpred
    obtain ⟨hb, hrest⟩ := hpred
    rcases hq2 : q.2 with _ | ⟨c, rest⟩
    · rw [hq2] at hrest
      simp at hrest
    · rw [hq2] at hrest
      simp only [] at hrest
      rw [Bool.and_eq_true] at hrest
      obtain ⟨hc, htail⟩ := hrest
      have hcs : c = sep := beq_iff_eq.mp hc
      rcases (tailTest_eq_true_iff sep rest).mp htail with ⟨d, e, rfl, hd, he, hse⟩
      refine ⟨q.1, d, e, ?_, (all_lineterm_false_iff _).mp hb, hd, he, hse⟩
      have hl := (mem_splits l q.1 q.2).mp hq
      rw [hl, hq2, hcs]
  · rintro ⟨b, d, e, rfl, hb, hd, he, hse⟩
    refine ⟨(b, sep :: (d ++ e)), (mem_splits _ _ _).mpr rfl, ?_⟩
    rw [Bool.and_eq_true]
    refine ⟨(all_lineterm_false_iff _).mpr hb, ?_⟩
    simp only []
    rw [Bool.and_eq_true]
    exact ⟨beq_iff_eq.mpr rfl,
      (tailTest_eq_true_iff sep (d ++ e)).mpr ⟨d, e, rfl, hd, he, hse⟩⟩

theorem regexTestSep_eq_true_iff (sep : Char) (s : String) :
    regexTestSep sep s = true ↔ regexMatchesSep sep s.data := by
  unfold regexTestSep regexMatchesSep
  rw [List.any_eq_true]
  constructor
  · rintro ⟨q, hq, hpred⟩
    rw [Bool.and_eq_true, Bool.and_eq_true] at hpred
    obtain ⟨⟨hne, hsa⟩, hmid⟩ := hpred
    rcases (midTest_eq_true_iff sep q.2).mp hmid with ⟨b, d, e, hq2, hb, hd, he, hse⟩
    refine ⟨q.1, b, d, e, ?_, ?_, (all_not_beq_iff _ _).mp hsa, he, hse, hb, hd⟩
    · have hl := (mem_splits s.data q.1 q.2).mp hq
      rw [hl, hq2]
      simp [List.append_assoc]
    · intro h
      rw [h] at hne
      simp at hne
  · rintro ⟨a, b, d, e, hdec, ha, hsa, he, hse, hb, hd⟩
    refine ⟨(a, b ++ sep :: (d ++ e)),
      (mem_splits _ _ _).mpr (by rw [hdec]; simp [List.append_assoc]), ?_⟩
    rw [Bool.and_eq_true, Bool.and_eq_true]
    refine ⟨⟨?_, (all_not_beq_iff _ _).mpr hsa⟩,
      (midTest_eq_true_iff sep _).mpr ⟨b, d, e, rfl, hb, hd, he, hse⟩⟩
    cases a with
    | nil => exact absurd rfl ha
    | cons _ _ => rfl


/-! Helper lemmas about the JavaScript `Map` model. -/

theorem mapGet_mapSet (m : List (String × β)) (k : String) (v : β) :
    mapGet (mapSet m k v) k = some v := by
  unfold mapSet
  split
  · rename_i hany
    rw [List.any_eq_true] at hany
    unfold mapGet
    induction m with
    | nil => simp at hany
    | cons q m ih =>
      by_cases hq : (q.1 == k) = true
      · simp [List.find?, hq]
      · rw [Bool.not_eq_true] at hq
        have hany' : ∃ x ∈ m, (x.1 == k) = true := by
          rcases hany with ⟨x, hx, hxk⟩
          cases List.mem_cons.mp hx with
          | inl h => rw [h] at hxk; rw [hxk] at hq; cases hq
          | inr h => exact ⟨x, h, hxk⟩
        simpa [List.find?, hq] using ih hany'
  · rename_i hany
    rw [Bool.not_eq_true, List.any_eq_false] at hany
    unfold mapGet
    induction m with
    | nil => simp [List.find?]
    | cons q m ih =>
      have hq : ¬(q.1 == k) = true := hany q (List.mem_cons_self q m)
      rw [Bool.not_eq_true] at hq
      have hany' : ∀ x ∈ m, ¬(x.1 == k) = true :=
        fun x hx => hany x (List.mem_cons_of_mem q hx)
      simpa [List.find?, hq] using ih hany'

theorem mapSet_key_eq (m : List (String × β)) (k : String) (v : β)
    (p : String × β) (hp : p ∈ mapSet m k v) (hk : p.1 = k) : p.2 = v := by
  unfold mapSet at hp
  split at hp
  · rcases List.mem_map.mp hp with ⟨q, hq, hqe⟩
    by_cases hqk : (q.1 == k) = true
    · rw [if_pos hqk] at hqe
      rw [← hqe]
    · rw [if_neg hqk] at hqe
      rw [← hqe] at hk
      exact absurd (beq_iff_eq.mpr hk) hqk
  · rename_i hany
    rw [Bool.not_eq_true, List.any_eq_false] at hany
    cases List.mem_append.mp hp with
    | inl h =>
      exact absurd (beq_iff_eq.mpr hk) (hany p h)
    | inr h =>
      simp only [List.mem_singleton] at h
      rw [h]

theorem distinctKeys_mapSet (m : List (String × β)) (k : String) (v : β)
    (h : distinctKeys m) : distinctKeys (mapSet m k v) := by
  unfold mapSet
  split
  · unfold distinctKeys at h ⊢
    rw [List.pairwise_map]
    refine h.imp_of_mem ?_
    intro p q _ _ hpq
    by_cases hp : (p.1 == k) = true <;> by_cases hq : (q.1 == k) = true
    · exact absurd ((beq_iff_eq.mp hp).trans (beq_iff_eq.mp hq).symm) hpq
    · simp only [if_pos hp, if_neg hq]
      exact fun he => hq (beq_iff_eq.mpr he.symm)
    · simp only [if_neg hp, if_pos hq]
      exact fun he => hp (beq_iff_eq.mpr he)
    · simp only [if_neg hp, if_neg hq]
      exact hpq
  · rename_i hany
    rw [Bool.not_eq_true, List.any_eq_false] at hany
    unfold distinctKeys at h ⊢
    rw [List.pairwise_append]
    refine ⟨h, List.pairwise_singleton _ _, ?_⟩
    intro p hp q hq
    simp only [List.mem_singleton] at hq
    rw [hq]
    exact fun he => (hany p hp) (beq_iff_eq.mpr he)

/-! Helper lemmas about the dispatcher. -/

theorem chainKey_includes_left (a b : String) :
    jsIncludes (a ++ "-" ++ b) a = true := by
  unfold jsIncludes
  rw [containsSeq_eq_true_iff]
  exact ⟨[], ("-" ++ b).data, by simp [String.data_append]⟩

theorem chainKey_includes_right (a b : String) :
    jsIncludes (a ++ "-" ++ b) b = true := by
  unfold jsIncludes
  rw [containsSeq_eq_true_iff]
  exact ⟨(a ++ "-").data, [], by simp [String.data_append]⟩

theorem chainKey_starts (a b : String) :
    jsStartsWith (a ++ "-" ++ b) a = true := by
  unfold jsStartsWith
  rw [startsWithSeq_eq_true_iff]
  exact ⟨("-" ++ b).data, by simp [String.data_append]⟩

theorem chainKey_includes_dash (a b : String) :
    jsIncludes (a ++ "-" ++ b) ("-" ++ b) = true := by
  unfold jsIncludes
  rw [containsSeq_eq_true_iff]
  exact ⟨a.data, [], by simp [String.data_append]⟩

theorem jsIncludes_of_jsStartsWith (s p : String) (h : jsStartsWith s p = true) :
    jsIncludes s p = true := by
  unfold jsStartsWith at h
  unfold jsIncludes
  rw [startsWithSeq_eq_true_iff] at h
  rw [containsSeq_eq_true_iff]
  rcases h with ⟨v, hv⟩
  exact ⟨[], v, by simpa using hv⟩

theorem jsIncludes_of_jsIncludes_dash (s p : String)
    (h : jsIncludes s ("-" ++ p) = true) : jsIncludes s p = true := by
  unfold jsIncludes at h ⊢
  rw [containsSeq_eq_true_iff] at h ⊢
  rcases h with ⟨u, v, huv⟩
  refine ⟨u ++ ['-'], v, ?_⟩
  rw [huv]
  simp [String.data_append]

/-- When the event key occurs inside some chained shortcut's key pattern,
the `useMagicKeys` listener invokes nothing and leaves the state alone. -/
theorem onEventFired_suppressed (sc : List (Shortcut α)) (typing : Bool)
    (e : KeyEvent) (st : DispatchState) (t : Shortcut α) (hmem : t ∈ sc)
    (hch : t.chained = true) (hinc : jsIncludes t.key (toLowerStr e.key) = true) :
    onEventFired sc typing e st = ([], st) := by
  unfold onEventFired
  by_cases h1 : (typing || e.type != "keydown") = true
  · rw [if_pos h1]
  · rw [if_neg h1]
    have hany : sc.any (fun s => s.chained && jsIncludes s.key (toLowerStr e.key)) = true :=
      List.any_eq_true.mpr ⟨t, hmem, by rw [hch, hinc]; rfl⟩
    simp only [hany, if_true]

/-- The keydown listener either invokes nothing or invokes the handler of
one chained shortcut from the active set. -/
theorem onKeyDown_fired_cases (sc : List (Shortcut α)) (typing : Bool)
    (e : KeyEvent) (now delay : Nat) (st : DispatchState) :
    (onKeyDown sc typing e now delay st).1 = [] ∨
      ∃ t ∈ sc, t.chained = true ∧ (onKeyDown sc typing e now delay st).1 = [t.handler] := by
  unfold onKeyDown
  by_cases h1 : (e.key == "") = true
  · rw [if_pos h1]
    left
    rfl
  · rw [if_neg h1]
    by_cases h2 : typing = true
    · rw [if_pos h2]
      left
      rfl
    · rw [if_neg h2]
      rcases hfc : findChained sc st.history (toLowerStr e.key) with _ | s
      · simp only [hfc]
        split <;> (left; rfl)
      · simp only [hfc]
        right
        refine ⟨s, ?_, ?_, rfl⟩
        · unfold findChained at hfc
          rcases hl : st.history.getLast? with _ | last
          · rw [hl] at hfc
            cases hfc
          · rw [hl] at hfc
            simp only [] at hfc
            exact List.mem_of_find?_eq_some hfc
        · unfold findChained at hfc
          rcases hl : st.history.getLast? with _ | last
          · rw [hl] at hfc
            cases hfc
          · rw [hl] at hfc
            simp only [] at hfc
            have hp := List.find?_some hfc
            simp only [Bool.and_eq_true] at hp
            exact hp.1

/-- Pressing the first token of a registered chain from the idle state
invokes nothing, pushes the token onto the chain history, and arms the
debounce timer. -/
theorem chain_first_keydown (sc : List (Shortcut α)) (sab : Shortcut α)
    (ka kb : String) (t0 delay : Nat) (hka : ka ≠ "")
    (hmem : sab ∈ sc) (hch : sab.chained = true)
    (hkey : sab.key = toLowerStr ka ++ "-" ++ toLowerStr kb) :
    processKeydown sc false (mkKeydown ka) t0 delay initState =
      ([], ⟨[toLowerStr ka], some (t0 + delay)⟩) := by
  have hst0 : expireTimer t0 initState = initState := rfl
  have h1 : onEventFired sc false (mkKeydown ka) initState = ([], initState) :=
    onEventFired_suppressed sc false (mkKeydown ka) initState sab hmem hch
      (by rw [hkey]; exact chainKey_includes_left _ _)
  simp only [processKeydown, hst0, h1]
  have hk0 : ((mkKeydown ka).key == "") = false := beq_eq_false_iff_ne.mpr hka
  have hfc : findChained sc ([] : List String) (toLowerStr (mkKeydown ka).key) = none := rfl
  have hany : sc.any (fun s => s.chained &&
      (jsStartsWith s.key (toLowerStr (mkKeydown ka).key) ||
        jsIncludes s.key ("-" ++ toLowerStr (mkKeydown ka).key))) = true :=
    List.any_eq_true.mpr ⟨sab, hmem, by
      show (sab.chained && (jsStartsWith sab.key (toLowerStr ka) ||
        jsIncludes sab.key ("-" ++ toLowerStr ka))) = true
      rw [hch, hkey, chainKey_starts]
      rfl⟩
  unfold onKeyDown
  simp only [hk0, Bool.false_eq_true, if_false, hfc, hany, if_true, initState]
  rfl

/-- Claim C2: for a chained spec `a-b` in the active set (with `sab` the first
active chained shortcut whose key is the lowercased `a-b` pattern),
starting from the idle dispatcher state a keydown of `a` at time `t0`
invokes nothing and arms the chain history, and a keydown of `b` at time
`t1` invokes the bound handler exactly once when `t1` is within the chain
timeout, while if the timeout has expired by `t1` (the debounce reset has
cleared the history) the `b` keydown invokes no handler at all. -/
theorem chained_two_key_sequence (sc : List (Shortcut α)) (sab : Shortcut α)
    (ka kb : String) (t0 t1 delay : Nat)
    (hka : ka ≠ "") (hkb : kb ≠ "")
    (hfind : sc.find? (fun s => s.chained &&
      s.key == toLowerStr ka ++ "-" ++ toLowerStr kb) = some sab) :
    processKeydown sc false (mkKeydown ka) t0 delay initState =
      ([], ⟨[toLowerStr ka], some (t0 + delay)⟩) ∧
    (t1 < t0 + delay →
      (processKeydown sc false (mkKeydown kb) t1 delay
        ⟨[toLowerStr ka], some (t0 + delay)⟩).1 = [sab.handler]) ∧
    (t0 + delay ≤ t1 →
      (processKeydown sc false (mkKeydown kb) t1 delay
        ⟨[toLowerStr ka], some (t0 + delay)⟩).1 = []) := by
  have hmem := List.mem_of_find?_eq_some hfind
  have hp := List.find?_some hfind
  simp only [Bool.and_eq_true, beq_iff_eq] at hp
  obtain ⟨hch, hkey⟩ := hp
  have hk0 : (kb == "") = false := beq_eq_false_iff_ne.mpr hkb
  refine ⟨chain_first_keydown sc sab ka kb t0 delay hka hmem hch hkey, ?_, ?_⟩
  · intro hlt
    have hst0 : expireTimer t1 ⟨[toLowerStr ka], some (t0 + delay)⟩ =
        ⟨[toLowerStr ka], some (t0 + delay)⟩ := by
      unfold expireTimer
      simp only []
      rw [if_neg (Nat.not_le.mpr hlt)]
    have h1 : onEventFired sc false (mkKeydown kb) ⟨[toLowerStr ka], some (t0 + delay)⟩ =
        ([], ⟨[toLowerStr ka], some (t0 + delay)⟩) :=
      onEventFired_suppressed _ _ _ _ sab hmem hch
        (by rw [hkey]; exact chainKey_includes_right _ _)
    have hfc : findChained sc [toLowerStr ka] (toLowerStr kb) = some sab := by
      unfold findChained
      simp only [List.getLast?_singleton]
      exact hfind
    simp only [processKeydown, hst0, h1]
    simp only [onKeyDown, mkKeydown, hk0, Bool.false_eq_true, if_false, hfc]
    rfl
  · intro hge
    have hst0 : expireTimer t1 ⟨[toLowerStr ka], some (t0 + delay)⟩ = initState := by
      unfold expireTimer
      simp only []
      rw [if_pos hge]
      rfl
    have h1 : onEventFired sc false (mkKeydown kb) initState = ([], initState) :=
      onEventFired_suppressed _ _ _ _ sab hmem hch
        (by rw [hkey]; exact chainKey_includes_right _ _)
    have hfc : findChained sc ([] : List String) (toLowerStr kb) = none := rfl
    have hany : sc.any (fun s => s.chained &&
        (jsStartsWith s.key (toLowerStr kb) ||
          jsIncludes s.key ("-" ++ toLowerStr kb))) = true :=
      List.any_eq_true.mpr ⟨sab, hmem, by
        show (sab.chained && (jsStartsWith sab.key (toLowerStr kb) ||
          jsIncludes sab.key ("-" ++ toLowerStr kb))) = true
        rw [hch, hkey, chainKey_includes_dash]
        simp⟩
    simp only [processKeydown, hst0, h1]
    simp only [onKeyDown, mkKeydown, hk0, Bool.false_eq_true, if_false, initState, hfc,
      hany, if_true]
    rfl

/-- Witness for C2 at the concrete chained spec `g-h` with chain delay
800: `g` at time 0 then `h` at time 100 fires the handler once; `g` at
time 0 then `h` at time 900 fires nothing. -/
theorem chained_two_key_sequence_witness :
    processKeydown (buildShortcuts [("g-h", (0 : Nat))] true) false (mkKeydown "g") 0 800
        initState = ([], ⟨[toLowerStr "g"], some (0 + 800)⟩) ∧
    (100 < 0 + 800 →
      (processKeydown (buildShortcuts [("g-h", (0 : Nat))] true) false (mkKeydown "h") 100 800
        ⟨[toLowerStr "g"], some (0 + 800)⟩).1 = [(0 : Nat)]) ∧
    (0 + 800 ≤ 900 →
      (processKeydown (buildShortcuts [("g-h", (0 : Nat))] true) false (mkKeydown "h") 900 800
        ⟨[toLowerStr "g"], some (0 + 800)⟩).1 = []) := by
  have h := chained_two_key_sequence (α := Nat) (buildShortcuts [("g-h", (0 : Nat))] true)
    ⟨0, true, "g-h", false, false, false, false⟩ "g" "h" 0 100 800
    (by decide) (by decide) (by decide)
  have h900 := chained_two_key_sequence (α := Nat) (buildShortcuts [("g-h", (0 : Nat))] true)
    ⟨0, true, "g-h", false, false, false, false⟩ "g" "h" 0 900 800
    (by decide) (by decide) (by decide)
  exact ⟨h.1, h.2.1, h900.2.2⟩

/-- Claim C3 counterexample: with chained `g-h` (handler 0) and bare `h`
(handler 1) both active, keydown `g` at time 0 and keydown `h` at time
900 with the default 800 chain delay invoke no handler at all — in
particular the bare `h` handler does NOT fire, contrary to the claim. -/
theorem chain_timeout_bare_key_cex :
    (let sc := buildShortcuts [("g-h", (0 : Nat)), ("h", 1)] true
     let r1 := processKeydown sc false (mkKeydown "g") 0 800 initState
     let r2 := processKeydown sc false (mkKeydown "h") 900 800 r1.2
     r1.1 ++ r2.1) = ([] : List Nat) := by decide

/-- Claim C3 amended: with chained `g-h` and bare `h` both in the active set, a
keydown `g` then a keydown `h` after the chain timeout has expired
invokes neither the `g-h` handler nor the bare `h` handler: the combined
path for `h` is suppressed because `h` occurs inside the active chained
pattern `g-h`. -/
theorem chain_timeout_bare_key (h₁ h₂ : α) (t0 t1 delay : Nat)
    (hge : t0 + delay ≤ t1) :
    (processKeydown (buildShortcuts [("g-h", h₁), ("h", h₂)] true) false
        (mkKeydown "g") t0 delay initState).1 = [] ∧
    (processKeydown (buildShortcuts [("g-h", h₁), ("h", h₂)] true) false
        (mkKeydown "h") t1 delay
        (processKeydown (buildShortcuts [("g-h", h₁), ("h", h₂)] true) false
          (mkKeydown "g") t0 delay initState).2).1 = [] := by
  have hsc : buildShortcuts [("g-h", h₁), ("h", h₂)] true =
      [⟨h₁, true, "g-h", false, false, false, false⟩,
       ⟨h₂, false, "h", false, false, false, false⟩] := rfl
  have hmem : (⟨h₁, true, "g-h", false, false, false, false⟩ : Shortcut α) ∈
      buildShortcuts [("g-h", h₁), ("h", h₂)] true := by
    rw [hsc]
    exact List.mem_cons_self _ _
  have hfirst := chain_first_keydown (buildShortcuts [("g-h", h₁), ("h", h₂)] true)
    ⟨h₁, true, "g-h", false, false, false, false⟩ "g" "h" t0 delay
    (by decide) hmem rfl rfl
  have hst0 : expireTimer t1 ⟨[toLowerStr "g"], some (t0 + delay)⟩ = initState := by
    unfold expireTimer
    simp only []
    rw [if_pos hge]
    rfl
  refine ⟨by rw [hfirst], ?_⟩
  simp only [hfirst]
  simp only [processKeydown, hst0]
  rfl

/-- Witness for the amended C3 at concrete handlers 0 and 1, `g` at time
0, `h` at time 900, chain delay 800. -/
theorem chain_timeout_bare_key_witness :
    (processKeydown (buildShortcuts [("g-h", (0 : Nat)), ("h", 1)] true) false
        (mkKeydown "g") 0 800 initState).1 = [] ∧
    (processKeydown (buildShortcuts [("g-h", (0 : Nat)), ("h", 1)] true) false
        (mkKeydown "h") 900 800
        (processKeydown (buildShortcuts [("g-h", (0 : Nat)), ("h", 1)] true) false
          (mkKeydown "g") 0 800 initState).2).1 = [] :=
  chain_timeout_bare_key (0 : Nat) 1 0 900 800 (by decide)

/-- With an empty chain history and no active chained shortcut in which
the event key participates, the keydown listener invokes nothing and
leaves the state unchanged. -/
theorem onKeyDown_no_participation (sc : List (Shortcut α)) (typing : Bool)
    (e : KeyEvent) (now delay : Nat) (st : DispatchState)
    (hhist : st.history = [])
    (hany : sc.any (fun s => s.chained &&
      (jsStartsWith s.key (toLowerStr e.key) ||
        jsIncludes s.key ("-" ++ toLowerStr e.key))) = false) :
    onKeyDown sc typing e now delay st = ([], st) := by
  unfold onKeyDown
  by_cases hk : (e.key == "") = true
  · rw [if_pos hk]
  · rw [if_neg hk]
    by_cases ht : typing = true
    · rw [if_pos ht]
    · rw [if_neg ht]
      have hfc : findChained sc st.history (toLowerStr e.key) = none := by
        rw [hhist]
        rfl
      simp only [hfc]
      rw [if_neg (by rw [hany]; exact Bool.false_ne_true)]

/-- Claim C4: whenever the lowercased event key occurs as a substring of the key
pattern of some chained shortcut in the active set, the `useMagicKeys`
listener (the combined-match path) invokes nothing and leaves its state
unchanged, and every handler invoked for the whole event belongs to a
chained shortcut of the active set — no combined handler fires. -/
theorem combined_path_skipped_for_chain_keys (sc : List (Shortcut α)) (typing : Bool)
    (e : KeyEvent) (st : DispatchState) (now delay : Nat) (t : Shortcut α)
    (hmem : t ∈ sc) (hch : t.chained = true)
    (hinc : jsIncludes t.key (toLowerStr e.key) = true) :
    onEventFired sc typing e st = ([], st) ∧
    ∀ h ∈ (processKeydown sc typing e now delay st).1,
      ∃ u ∈ sc, u.chained = true ∧ u.handler = h := by
  refine ⟨onEventFired_suppressed sc typing e st t hmem hch hinc, ?_⟩
  intro h hh
  have h1 : onEventFired sc typing e (expireTimer now st) = ([], expireTimer now st) :=
    onEventFired_suppressed sc typing e _ t hmem hch hinc
  simp only [processKeydown, h1, List.nil_append] at hh
  rcases onKeyDown_fired_cases sc typing e now delay (expireTimer now st) with
    hc | ⟨u, hu, hcu, he⟩
  · rw [hc] at hh
    cases hh
  · rw [he] at hh
    cases List.mem_singleton.mp hh
    exact ⟨u, hu, hcu, rfl⟩

/-- Witness for C4: with chained `g-h` and bare `h` both active, a bare
`h` keydown — which matches the bare `h` combined shortcut exactly —
invokes no combined handler; the listener returns nothing. -/
theorem combined_path_skipped_for_chain_keys_witness :
    onEventFired (buildShortcuts [("g-h", (0 : Nat)), ("h", 1)] true) false
        (mkKeydown "h") initState = ([], initState) ∧
    ∀ h ∈ (processKeydown (buildShortcuts [("g-h", (0 : Nat)), ("h", 1)] true) false
        (mkKeydown "h") 0 800 initState).1,
      ∃ u ∈ buildShortcuts [("g-h", (0 : Nat)), ("h", 1)] true,
        u.chained = true ∧ u.handler = h :=
  combined_path_skipped_for_chain_keys
    (buildShortcuts [("g-h", (0 : Nat)), ("h", 1)] true) false (mkKeydown "h")
    initState 0 800 ⟨0, true, "g-h", false, false, false, false⟩
    (by decide) (by decide) (by decide)

/-- Claim C5: a combined match returns a shortcut only when it is non-chained,
its key equals the lowercased event key, and all four modifier flags
equal the event's flags exactly; and when such a match exists while no
chained-key suppression applies (the event key occurs in no active
chained pattern) and the user is not typing, delivering the keydown
invokes exactly that shortcut's handler, exactly once. -/
theorem combined_exact_match_fires_once (sc : List (Shortcut α)) (e : KeyEvent)
    (st : DispatchState) (now delay : Nat) (s : Shortcut α)
    (htype : e.type = "keydown")
    (hnosup : ∀ t ∈ sc, t.chained = true → jsIncludes t.key (toLowerStr e.key) = false)
    (hfind : findCombined sc e = some s) :
    s.chained = false ∧ s.key = toLowerStr e.key ∧
    s.ctrlKey = e.ctrlKey ∧ s.metaKey = e.metaKey ∧
    s.shiftKey = e.shiftKey ∧ s.altKey = e.altKey ∧
    (processKeydown sc false e now delay st).1 = [s.handler] := by
  have hp := List.find?_some hfind
  simp only [Bool.and_eq_true, beq_iff_eq, Bool.not_eq_true'] at hp
  obtain ⟨⟨⟨⟨⟨hch, hkeyeq⟩, hctrl⟩, hmeta⟩, hshift⟩, halt⟩ := hp
  have hbch : s.chained = false := hch
  refine ⟨hbch, hkeyeq, by rw [← hctrl], by rw [← hmeta], by rw [← hshift], by rw [← halt], ?_⟩
  have hanysup : sc.any (fun t => t.chained && jsIncludes t.key (toLowerStr e.key)) = false :=
    List.any_eq_false.mpr (fun t ht hpred => by
      rw [Bool.and_eq_true] at hpred
      rw [hnosup t ht hpred.1] at hpred
      exact Bool.false_ne_true hpred.2)
  have h1 : onEventFired sc false e (expireTimer now st) =
      ([s.handler], { expireTimer now st with history := [] }) := by
    unfold onEventFired
    rw [if_neg (by rw [htype]; decide)]
    rw [if_neg (by rw [hanysup]; exact Bool.false_ne_true)]
    simp only [hfind]
  have hany2 : sc.any (fun t => t.chained &&
      (jsStartsWith t.key (toLowerStr e.key) ||
        jsIncludes t.key ("-" ++ toLowerStr e.key))) = false :=
    List.any_eq_false.mpr (fun t ht hpred => by
      rw [Bool.and_eq_true, Bool.or_eq_true] at hpred
      obtain ⟨hc', hor⟩ := hpred
      have hi : jsIncludes t.key (toLowerStr e.key) = true := by
        cases hor with
        | inl h => exact jsIncludes_of_jsStartsWith _ _ h
        | inr h => exact jsIncludes_of_jsIncludes_dash _ _ h
      rw [hnosup t ht hc'] at hi
      exact Bool.false_ne_true hi)
  have h2 := onKeyDown_no_participation sc false e now delay
    { expireTimer now st with history := [] } rfl hany2
  simp only [processKeydown, h1, h2]
  rfl

/-- Witness for C5: the spec `ctrl_s` and an exactly matching
`ctrl`+`s` keydown; the handler fires once. -/
theorem combined_exact_match_fires_once_witness :
    (⟨0, false, "s", true, false, false, false⟩ : Shortcut Nat).chained = false ∧
    (⟨(0 : Nat), false, "s", true, false, false, false⟩ : Shortcut Nat).key =
      toLowerStr (⟨"keydown", "s", true, false, false, false⟩ : KeyEvent).key ∧
    (⟨(0 : Nat), false, "s", true, false, false, false⟩ : Shortcut Nat).ctrlKey =
      (⟨"keydown", "s", true, false, false, false⟩ : KeyEvent).ctrlKey ∧
    (⟨(0 : Nat), false, "s", true, false, false, false⟩ : Shortcut Nat).metaKey =
      (⟨"keydown", "s", true, false, false, false⟩ : KeyEvent).metaKey ∧
    (⟨(0 : Nat), false, "s", true, false, false, false⟩ : Shortcut Nat).shiftKey =
      (⟨"keydown", "s", true, false, false, false⟩ : KeyEvent).shiftKey ∧
    (⟨(0 : Nat), false, "s", true, false, false, false⟩ : Shortcut Nat).altKey =
      (⟨"keydown", "s", true, false, false, false⟩ : KeyEvent).altKey ∧
    (processKeydown (buildShortcuts [("ctrl_s", (0 : Nat))] true) false
      (⟨"keydown", "s", true, false, false, false⟩ : KeyEvent) 0 800 initState).1 = [0] :=
  combined_exact_match_fires_once (buildShortcuts [("ctrl_s", (0 : Nat))] true)
    ⟨"keydown", "s", true, false, false, false⟩ initState 0 800
    ⟨0, false, "s", true, false, false, false⟩
    (by decide) (by decide) (by decide)

theorem contains_eq_false_of_not_mem [BEq β] [LawfulBEq β] (l : List β) (c : β)
    (h : c ∉ l) : l.contains c = false := by
  rw [Bool.eq_false_iff]
  intro hc
  rcases List.contains_iff_exists_mem_beq.mp hc with ⟨c', hc', he⟩
  exact h (beq_iff_eq.mp he ▸ hc')

theorem contains_eq_true_of_mem [BEq β] [LawfulBEq β] (l : List β) (c : β)
    (h : c ∈ l) : l.contains c = true :=
  List.contains_iff_exists_mem_beq.mpr ⟨c, h, beq_iff_eq.mpr rfl⟩

/-- Claim C6 counterexample: the bare spec `"ctrl"` contains neither a hyphen
nor an underscore, yet it does NOT parse to a shortcut whose key is the
whole string with all flags clear — the modifier-token filter empties the
key and sets `ctrlKey`. -/
theorem bare_key_parse_cex :
    parseShortcut "ctrl" (0 : Nat) true ≠
      some ⟨0, false, "ctrl", false, false, false, false⟩ ∧
    parseShortcut "ctrl" (0 : Nat) true =
      some ⟨0, false, "", true, false, false, false⟩ := by decide

/-- Claim C6 amended: for every spec string containing neither a hyphen nor an
underscore and whose lowercased form is not itself one of the six
modifier tokens, `parseShortcut` returns a shortcut with `chained =
false`, all four modifier flags `false`, and key equal to the whole
lowercased spec string. -/
theorem bare_key_parse (s : String) (h : α) (mac : Bool)
    (hd : '-' ∉ s.data) (hu : '_' ∉ s.data)
    (hm : toLowerStr s ∉ modifierTokens) :
    parseShortcut s h mac =
      some ⟨h, false, toLowerStr s, false, false, false, false⟩ := by
  have hd' : '-' ∉ (toLowerStr s).data :=
    fun hc => hd ((low_mem_toLowerStr s '-' (by decide) (by decide)).mp hc)
  have hu' : '_' ∉ (toLowerStr s).data :=
    fun hc => hu ((low_mem_toLowerStr s '_' (by decide) (by decide)).mp hc)
  have hcd : (toLowerStr s).data.contains '-' = false :=
    contains_eq_false_of_not_mem _ _ hd'
  have hcu : (toLowerStr s).data.contains '_' = false :=
    contains_eq_false_of_not_mem _ _ hu'
  have hsplit : jsSplit (toLowerStr s) '_' = [toLowerStr s] := by
    unfold jsSplit
    rw [splitOnChar_of_not_mem _ _ hu']
    rfl
  have hfk : modifierTokens.contains (toLowerStr s) = false :=
    contains_eq_false_of_not_mem _ _ hm
  have hne : ∀ t ∈ modifierTokens, ¬([toLowerStr s].contains t = true) := by
    intro t ht hc
    rcases List.contains_iff_exists_mem_beq.mp hc with ⟨c', hc', he⟩
    rw [List.mem_singleton] at hc'
    exact hm (hc' ▸ beq_iff_eq.mp he ▸ ht)
  have hmeta : ([toLowerStr s].contains "meta") = false :=
    Bool.eq_false_iff.mpr (hne "meta" (by decide))
  have hcommand : ([toLowerStr s].contains "command") = false :=
    Bool.eq_false_iff.mpr (hne "command" (by decide))
  have hctrl : ([toLowerStr s].contains "ctrl") = false :=
    Bool.eq_false_iff.mpr (hne "ctrl" (by decide))
  have hshift : ([toLowerStr s].contains "shift") = false :=
    Bool.eq_false_iff.mpr (hne "shift" (by decide))
  have halt : ([toLowerStr s].contains "alt") = false :=
    Bool.eq_false_iff.mpr (hne "alt" (by decide))
  have hoption : ([toLowerStr s].contains "option") = false :=
    Bool.eq_false_iff.mpr (hne "option" (by decide))
  simp only [parseShortcut, parseShortcutRaw, hcd, hcu, Bool.false_and, Bool.and_false,
    Bool.false_eq_true, if_false, hsplit]
  simp only [List.filter, hfk, Bool.not_false, hmeta, hcommand, hctrl, hshift, halt,
    hoption, Bool.or_self]
  have hjoin : jsJoin [toLowerStr s] '_' = toLowerStr s := rfl
  simp only [hjoin, Option.map_some', platformNormalize, Bool.and_false, Bool.false_and,
    Bool.false_eq_true, if_false]

/-- Witness for the amended C6 at the spec `"escape"` on a non-macOS
platform. -/
theorem bare_key_parse_witness :
    ('-' ∉ "escape".data ∧ '_' ∉ "escape".data ∧ toLowerStr "escape" ∉ modifierTokens) ∧
    parseShortcut "escape" (0 : Nat) false =
      some ⟨0, false, toLowerStr "escape", false, false, false, false⟩ :=
  ⟨by decide, bare_key_parse "escape" 0 false (by decide) (by decide) (by decide)⟩

/-- Claim C7 counterexample: the hyphen spec `"a-b-c"` does not have the
"exactly two non-empty segments" shape the claim requires, yet
`parseShortcut` accepts it (the source regex allows interior hyphens). -/
theorem chained_shape_cex :
    specTwoSegmentShape (toLowerStr "a-b-c") = false ∧
    parseShortcut "a-b-c" (0 : Nat) true ≠ none := by decide

/-- Claim C7 amended: a spec containing a hyphen and no underscore parses
non-null if and only if its lowercased form matches the source regex
`/^[^-]+.*-.*[^-]+$/` under JavaScript semantics, where `.` does not
match line terminators but the negated class `[^-]` does — the string
decomposes as one-or-more non-hyphen characters, a line-terminator-free
stretch, a hyphen, a line-terminator-free stretch, and one-or-more
non-hyphen characters.  Interior hyphens are allowed inside the `.*`
stretches, so three-or-more-segment specs such as `"a-b-c"` are also
accepted, refuting the claim's "exactly two segments" shape. -/
theorem chained_spec_accepted_iff (s : String) (h : α) (mac : Bool)
    (hd : '-' ∈ s.data) (hu : '_' ∉ s.data) :
    (parseShortcut s h mac ≠ none ↔ regexMatchesSep '-' (toLowerStr s).data) := by
  have hd' : '-' ∈ (toLowerStr s).data :=
    (low_mem_toLowerStr s '-' (by decide) (by decide)).mpr hd
  have hu' : '_' ∉ (toLowerStr s).data :=
    fun hc => hu ((low_mem_toLowerStr s '_' (by decide) (by decide)).mp hc)
  have hcd : (toLowerStr s).data.contains '-' = true := contains_eq_true_of_mem _ _ hd'
  have hcu : (toLowerStr s).data.contains '_' = false := contains_eq_false_of_not_mem _ _ hu'
  have hparse : parseShortcut s h mac =
      (if chainedShortcutRegexTest (toLowerStr s) = true then
        some (platformNormalize mac ⟨h, true, toLowerStr s, false, false, false, false⟩)
      else none) := by
    by_cases htest : chainedShortcutRegexTest (toLowerStr s) = true
    · rw [if_pos htest]
      simp only [parseShortcut, parseShortcutRaw, hcd, hcu, htest, Bool.not_false,
        Bool.not_true, Bool.true_and, Bool.and_false, Bool.false_and, Bool.false_eq_true,
        if_false, if_true, Option.map_some']
    · have hf : chainedShortcutRegexTest (toLowerStr s) = false := Bool.eq_false_iff.mpr htest
      rw [if_neg htest]
      simp only [parseShortcut, parseShortcutRaw, hcd, hcu, hf, Bool.not_false,
        Bool.true_and, if_true, Option.map_none']
  rw [hparse, ← regexTestSep_eq_true_iff]
  constructor
  · intro hne
    by_cases htest : chainedShortcutRegexTest (toLowerStr s) = true
    · exact htest
    · rw [if_neg htest] at hne
      exact absurd rfl hne
  · intro hr
    rw [if_pos (show chainedShortcutRegexTest (toLowerStr s) = true from hr)]
    exact Option.some_ne_none _

/-- Witness for the amended C7 at the spec `"g-h"`. -/
theorem chained_spec_accepted_iff_witness :
    ('-' ∈ "g-h".data ∧ '_' ∉ "g-h".data) ∧
    (parseShortcut "g-h" (0 : Nat) true ≠ none ↔
      regexMatchesSep '-' (toLowerStr "g-h").data) :=
  ⟨by decide, chained_spec_accepted_iff "g-h" 0 true (by decide) (by decide)⟩

/-- Claim C8: the parse result is the raw parse with platform normalization as
the final step — on macOS every parsed spec is unchanged; off macOS a
parsed spec with `metaKey` set and `ctrlKey` clear is rewritten to
`metaKey = false, ctrlKey = true`, and every other flag combination is
unchanged. -/
theorem platform_normalization (key : String) (h : α) (s : Shortcut α)
    (hraw : parseShortcutRaw key h = some s) :
    parseShortcut key h true = some s ∧
    (s.metaKey = true → s.ctrlKey = false →
      parseShortcut key h false = some { s with metaKey := false, ctrlKey := true }) ∧
    ((s.metaKey = false ∨ s.ctrlKey = true) → parseShortcut key h false = some s) := by
  unfold parseShortcut
  rw [hraw]
  simp only [Option.map_some']
  refine ⟨?_, ?_, ?_⟩
  · simp [platformNormalize]
  · intro hm hc
    simp [platformNormalize, hm, hc]
  · intro hor
    cases hor with
    | inl hm => simp [platformNormalize, hm]
    | inr hc => simp [platformNormalize, hc]

/-- Witness for C8 at the spec `"meta_k"`: on macOS it stays `metaKey`,
off macOS it is rewritten to `ctrlKey`. -/
theorem platform_normalization_witness :
    parseShortcut "meta_k" (0 : Nat) true =
      some ⟨0, false, "k", false, true, false, false⟩ ∧
    ((⟨(0 : Nat), false, "k", false, true, false, false⟩ : Shortcut Nat).metaKey = true →
      (⟨(0 : Nat), false, "k", false, true, false, false⟩ : Shortcut Nat).ctrlKey = false →
      parseShortcut "meta_k" (0 : Nat) false =
        some { (⟨(0 : Nat), false, "k", false, true, false, false⟩ : Shortcut Nat) with
          metaKey := false, ctrlKey := true }) ∧
    (((⟨(0 : Nat), false, "k", false, true, false, false⟩ : Shortcut Nat).metaKey = false ∨
      (⟨(0 : Nat), false, "k", false, true, false, false⟩ : Shortcut Nat).ctrlKey = true) →
      parseShortcut "meta_k" (0 : Nat) false =
        some ⟨0, false, "k", false, true, false, false⟩) :=
  platform_normalization "meta_k" (0 : Nat)
    ⟨0, false, "k", false, true, false, false⟩ (by decide)

/-- Claim C9: while the typing guard reports typing, delivering any keyboard
event invokes no handler at all — chained or combined; and with
`disableOnInputs` set to `false` the guard reports "not typing" for
every focus target. -/
theorem typing_guard_suppresses (sc : List (Shortcut α)) (dOI : Bool)
    (ae : Option ActiveElement) (e : KeyEvent) (now delay : Nat) (st : DispatchState)
    (ht : isTyping dOI ae = true) :
    (processKeydown sc (isTyping dOI ae) e now delay st).1 = [] ∧
    ∀ ae' : Option ActiveElement, isTyping false ae' = false := by
  refine ⟨?_, fun ae' => rfl⟩
  rw [ht]
  have h1 : onEventFired sc true e (expireTimer now st) = ([], expireTimer now st) := by
    unfold onEventFired
    rw [if_pos (by rw [Bool.true_or])]
  have h2 : onKeyDown sc true e now delay (expireTimer now st) =
      ([], expireTimer now st) := by
    unfold onKeyDown
    by_cases hk : (e.key == "") = true
    · rw [if_pos hk]
    · rw [if_neg hk, if_pos rfl]
  simp only [processKeydown, h1, h2]
  rfl

/-- Witness for C9: a focused text input with `disableOnInputs = true`
suppresses an `escape` keydown entirely. -/
theorem typing_guard_suppresses_witness :
    (processKeydown (buildShortcuts [("escape", (0 : Nat))] true)
        (isTyping true (some ⟨"INPUT", false⟩)) (mkKeydown "escape") 0 800 initState).1
      = [] ∧
    ∀ ae' : Option ActiveElement, isTyping false ae' = false :=
  typing_guard_suppresses (buildShortcuts [("escape", (0 : Nat))] true) true
    (some ⟨"INPUT", false⟩) (mkKeydown "escape") 0 800 initState (by decide)

/-- Claim C10: the `ShortcutRegistry` backing map keeps at most one record per
shortcut string — registering the same shortcut twice preserves key
distinctness, makes `getRegistration` return the second registrant's
record, and leaves no entry holding the first registrant's record under
that shortcut. -/
theorem registry_overwrites (m : List (String × RegRecord α)) (k : String)
    (h₁ h₂ : α) (c₁ l₁ c₂ l₂ : String) (hm : distinctKeys m) :
    distinctKeys (registryRegister (registryRegister m k h₁ c₁ l₁) k h₂ c₂ l₂) ∧
    getRegistration (registryRegister (registryRegister m k h₁ c₁ l₁) k h₂ c₂ l₂) k =
      some ⟨c₂, h₂, l₂⟩ ∧
    ∀ r : RegRecord α,
      (k, r) ∈ registryRegister (registryRegister m k h₁ c₁ l₁) k h₂ c₂ l₂ →
        r = ⟨c₂, h₂, l₂⟩ :=
  ⟨distinctKeys_mapSet _ _ _ (distinctKeys_mapSet _ _ _ hm),
   mapGet_mapSet _ _ _,
   fun r hr => mapSet_key_eq _ _ _ (k, r) hr rfl⟩

/-- Witness for C10: registering `ctrl_s` twice in the empty registry,
first by component A then by component B, leaves one record — B's. -/
theorem registry_overwrites_witness :
    distinctKeys (registryRegister (registryRegister ([] : List (String × RegRecord Nat))
      "ctrl_s" 1 "CompA" "locA") "ctrl_s" 2 "CompB" "locB") ∧
    getRegistration (registryRegister (registryRegister ([] : List (String × RegRecord Nat))
      "ctrl_s" 1 "CompA" "locA") "ctrl_s" 2 "CompB" "locB") "ctrl_s" =
      some ⟨"CompB", 2, "locB"⟩ ∧
    ∀ r : RegRecord Nat,
      ("ctrl_s", r) ∈ registryRegister (registryRegister ([] : List (String × RegRecord Nat))
        "ctrl_s" 1 "CompA" "locA") "ctrl_s" 2 "CompB" "locB" →
        r = ⟨"CompB", 2, "locB"⟩ :=
  registry_overwrites [] "ctrl_s" 1 2 "CompA" "locA" "CompB" "locB" List.Pairwise.nil

/-- Claim C1 (supporting theorem for the code bug): registering the same key
string under two distinct owners and then calling `getConflicts` reports
no conflict at all — the backing `Map` overwrote the first owner, as the
second conjunct shows — where the claim (and the spec) require exactly
one entry listing both owners. -/
theorem conflict_double_register_reports_nothing :
    conflictGetConflicts
      (conflictRegister (conflictRegister [] "ctrl_s" "demo" "ComponentA")
        "ctrl_s" "editor" "ComponentB") = [] ∧
    mapGet (conflictRegister (conflictRegister [] "ctrl_s" "demo" "ComponentA")
        "ctrl_s" "editor" "ComponentB") "ctrl_s" =
      some ⟨"editor", "ComponentB"⟩ := by decide

end DefineShortcuts
